import Mathlib

/-!
Verification development for the distributed table shuffler in
modules/graph/utils/table_shuffler_beta.h.

The embedding models:
- the typed columnar codec (SerializeSelectedItems / DeserializeSelectedItems
  and their per-type helpers) over a byte-stream archive, with machine values
  represented as natural-number bit patterns of the declared byte width;
- the in-process row selector (SelectItems / SelectRows);
- the schema consistency barrier (SchemaConsistent) as a pure per-peer
  function of the vector of all peer schemas;
- the shuffle engine (ShuffleTableByOffsetLists) as a sequential function of
  the arrival-ordered list of received wire archives, with the outbound queue
  contents modelled in canonical batch order;
- the offset-list scan loops of ShufflePropertyVertexTable and
  ShufflePropertyEdgeTable.

Concurrency is modelled by leaving the arrival order of received archives a
parameter (theorems quantify over permutations) and by presenting each
parallel loop in its sequential per-item order, which is sound because every
parallel loop in the source partitions its work by an atomic claim counter
and each claimed item is processed by exactly one thread.
-/

namespace TableShufflerBeta

/-- Numeric payload types of the codec: the six fixed-width primitive types
dispatched in SerializeSelectedItems (f64, f32, i64, i32, u64, u32). -/
inductive PrimType where
  | f64 | f32 | i64 | i32 | u64 | u32
  deriving DecidableEq, Repr

/-- Byte width of each primitive type, matching sizeof in the source. -/
def PrimType.width : PrimType → Nat
  | .f64 => 8
  | .f32 => 4
  | .i64 => 8
  | .i32 => 4
  | .u64 => 8
  | .u32 => 4

/-- Column logical types of the closed dispatch set in SerializeSelectedItems
(lines 225-259): the six numerics, large_utf8, null, and large_list of a
numeric. -/
inductive ColType where
  | prim (p : PrimType)
  | lutf8
  | nullT
  | llist (p : PrimType)
  deriving DecidableEq, Repr

/-- A column of cell values. Machine numbers are stored as their bit pattern
(a natural number below 256 ^ width), strings as byte lists, null columns by
their length alone (a null array carries no bytes), and large-list columns as
lists of numeric bit patterns. -/
inductive Column where
  | prim (p : PrimType) (vals : List Nat)
  | str (vals : List (List Nat))
  | nullCol (n : Nat)
  | llist (p : PrimType) (vals : List (List Nat))
  deriving DecidableEq, Repr

/-- Logical type of a column. -/
def Column.type : Column → ColType
  | .prim p _ => .prim p
  | .str _ => .lutf8
  | .nullCol _ => .nullT
  | .llist p _ => .llist p

/-- Row count of a column. -/
def Column.length : Column → Nat
  | .prim _ vals => vals.length
  | .str vals => vals.length
  | .nullCol n => n
  | .llist _ vals => vals.length

/-- Well-formedness of a column: every numeric bit pattern fits its declared
width, string bytes are bytes and string lengths fit the 64-bit size_t length
prefix, and list lengths fit the signed 64-bit length prefix. -/
def Column.wf : Column → Bool
  | .prim p vals => vals.all (fun v => decide (v < 256 ^ p.width))
  | .str vals =>
      vals.all (fun s => decide (s.length < 2 ^ 64) && s.all (fun b => decide (b < 256)))
  | .nullCol _ => true
  | .llist p vals =>
      vals.all (fun l =>
        decide (l.length < 2 ^ 63) && l.all (fun v => decide (v < 256 ^ p.width)))

/-- A record batch: a row count and the columns, as in arrow::RecordBatch. -/
structure RecordBatch where
  numRows : Nat
  cols : List Column
  deriving DecidableEq, Repr

instance : Inhabited RecordBatch := ⟨⟨0, []⟩⟩

/-- The schema of a record batch, projected to the column types (field names
play no role in the codec). -/
def RecordBatch.schema (b : RecordBatch) : List ColType :=
  b.cols.map Column.type

/-- Well-formedness of a record batch: every column is well formed and has
exactly numRows cells. -/
def RecordBatch.wf (b : RecordBatch) : Bool :=
  b.cols.all (fun c => c.wf && c.length == b.numRows)

/-! ### Archive primitives

A grape InArchive / OutArchive is modelled as a byte list. A fixed-width
machine value is appended in little-endian byte order by the archive
operator; reading returns the value and the remaining bytes. -/

/-- Little-endian encoding of the low w bytes of v: the bytes the archive
operator appends for a w-byte machine value with bit pattern v. -/
def natLE : Nat → Nat → List Nat
  | 0, _ => []
  | w + 1, v => v % 256 :: natLE w (v / 256)

/-- Read a w-byte little-endian value from the archive, returning it and the
remaining bytes. -/
def readLE : Nat → List Nat → Option (Nat × List Nat)
  | 0, bs => some (0, bs)
  | _ + 1, [] => none
  | w + 1, b :: bs =>
    match readLE w bs with
    | none => none
    | some (v, rest) => some (b + 256 * v, rest)

/-- Read n raw bytes from the archive (OutArchive::GetBytes). -/
def readBytes (n : Nat) (bs : List Nat) : Option (List Nat × List Nat) :=
  if n ≤ bs.length then some (bs.take n, bs.drop n) else none

/-! ### Codec: serialization (lines 172-269) -/

/-- Model of the two-argument overload of serialize_selected_typed_items
(lines 172-182): serializes every element of the array, in order. It is used
on the value slice of a large-list cell. -/
def serialize_typed_items_whole (p : PrimType) (vals : List Nat) : List Nat :=
  (vals.map (natLE p.width)).flatten

/-- Model of serialize_selected_typed_items (lines 184-195): for each x in
offset, appends the raw value ptr[x]. -/
def serialize_selected_typed_items (p : PrimType) (vals : List Nat)
    (offset : List Nat) : List Nat :=
  (offset.map (fun x => natLE p.width (vals.getD x 0))).flatten

/-- Model of serialize_string_items (lines 197-204): for each x in offset,
appends the string view, which the archive operator writes as a size_t
length followed by the raw bytes (lines 46-51). -/
def serialize_string_items (vals : List (List Nat)) (offset : List Nat) : List Nat :=
  (offset.map (fun x => natLE 8 (vals.getD x []).length ++ vals.getD x [])).flatten

/-- Model of serialize_null_items (lines 206-210): writes nothing. -/
def serialize_null_items (_offset : List Nat) : List Nat := []

/-- Model of serialize_list_items (lines 212-223): for each x in offset,
appends the int64 list length followed by the raw values of the slice. -/
def serialize_list_items (p : PrimType) (vals : List (List Nat))
    (offset : List Nat) : List Nat :=
  (offset.map (fun x =>
    natLE 8 (vals.getD x []).length ++ serialize_typed_items_whole p (vals.getD x []))).flatten

/-- Model of SerializeSelectedItems (lines 225-259): dispatch on the column
logical type. -/
def SerializeSelectedItems (c : Column) (offset : List Nat) : List Nat :=
  match c with
  | .prim p vals => serialize_selected_typed_items p vals offset
  | .str vals => serialize_string_items vals offset
  | .nullCol _ => serialize_null_items offset
  | .llist p vals => serialize_list_items p vals offset

/-- Model of SerializeSelectedRows (lines 261-269): the int64 offset count,
then each column in schema order. -/
def SerializeSelectedRows (b : RecordBatch) (offset : List Nat) : List Nat :=
  natLE 8 offset.length ++ (b.cols.map (fun c => SerializeSelectedItems c offset)).flatten

/-! ### Codec: deserialization (lines 271-361) -/

/-- Model of deserialize_selected_typed_items (lines 271-282): reads num
values of the primitive width and appends them to the builder. -/
def deserialize_selected_typed_items (p : PrimType) :
    Nat → List Nat → Option (List Nat × List Nat)
  | 0, bs => some ([], bs)
  | n + 1, bs =>
    match readLE p.width bs with
    | none => none
    | some (v, bs) =>
      match deserialize_selected_typed_items p n bs with
      | none => none
      | some (vs, rest) => some (v :: vs, rest)

/-- Model of deserialize_string_items (lines 284-292): reads num strings,
each a size_t length followed by that many bytes (lines 53-60). -/
def deserialize_string_items :
    Nat → List Nat → Option (List (List Nat) × List Nat)
  | 0, bs => some ([], bs)
  | n + 1, bs =>
    match readLE 8 bs with
    | none => none
    | some (len, bs) =>
      match readBytes len bs with
      | none => none
      | some (s, bs) =>
        match deserialize_string_items n bs with
        | none => none
        | some (ss, rest) => some (s :: ss, rest)

/-- Model of deserialize_list_items (lines 300-311): reads num lists, each an
int64 length followed by that many raw values. -/
def deserialize_list_items (p : PrimType) :
    Nat → List Nat → Option (List (List Nat) × List Nat)
  | 0, bs => some ([], bs)
  | n + 1, bs =>
    match readLE 8 bs with
    | none => none
    | some (len, bs) =>
      match deserialize_selected_typed_items p len bs with
      | none => none
      | some (l, bs) =>
        match deserialize_list_items p n bs with
        | none => none
        | some (ls, rest) => some (l :: ls, rest)

/-- Model of DeserializeSelectedItems (lines 313-346): dispatch on the
builder type, consuming num cells; a null builder consumes nothing and
appends num nulls (lines 294-298). -/
def DeserializeSelectedItems (t : ColType) (num : Nat) (bs : List Nat) :
    Option (Column × List Nat) :=
  match t with
  | .prim p =>
    match deserialize_selected_typed_items p num bs with
    | none => none
    | some (vs, rest) => some (.prim p vs, rest)
  | .lutf8 =>
    match deserialize_string_items num bs with
    | none => none
    | some (vs, rest) => some (.str vs, rest)
  | .nullT => some (.nullCol num, bs)
  | .llist p =>
    match deserialize_list_items p num bs with
    | none => none
    | some (vs, rest) => some (.llist p vs, rest)

/-- Column loop of DeserializeSelectedRows (lines 356-359): each field of the
record-batch builder consumes row_num cells in schema order. -/
def deserializeColumns (schema : List ColType) (num : Nat) (bs : List Nat) :
    Option (List Column × List Nat) :=
  match schema with
  | [] => some ([], bs)
  | t :: ts =>
    match DeserializeSelectedItems t num bs with
    | none => none
    | some (c, bs) =>
      match deserializeColumns ts num bs with
      | none => none
      | some (cs, rest) => some (c :: cs, rest)

/-- Model of DeserializeSelectedRows (lines 348-361): reads the int64 row
count, builds typed builders from the schema, consumes row_num cells per
column, and flushes into the output batch. -/
def DeserializeSelectedRows (schema : List ColType) (bs : List Nat) :
    Option (RecordBatch × List Nat) :=
  match readLE 8 bs with
  | none => none
  | some (row_num, bs) =>
    match deserializeColumns schema row_num bs with
    | none => none
    | some (cols, rest) => some (⟨row_num, cols⟩, rest)

/-! ### Row selector (lines 363-472) -/

/-- Model of the offset overload of select_typed_items (lines 375-388):
appends ptr[x] for each x in offset. -/
def select_typed_items (vals : List Nat) (offset : List Nat) : List Nat :=
  offset.map (fun x => vals.getD x 0)

/-- Model of select_string_items (lines 390-398). -/
def select_string_items (vals : List (List Nat)) (offset : List Nat) :
    List (List Nat) :=
  offset.map (fun x => vals.getD x [])

/-- Model of select_list_items (lines 408-420): appends the whole value
slice for each x in offset. -/
def select_list_items (vals : List (List Nat)) (offset : List Nat) :
    List (List Nat) :=
  offset.map (fun x => vals.getD x [])

/-- Model of SelectItems (lines 422-456): dispatch on the column type; a
null column appends offset.size() nulls (lines 400-406). -/
def SelectItems (c : Column) (offset : List Nat) : Column :=
  match c with
  | .prim p vals => .prim p (select_typed_items vals offset)
  | .str vals => .str (select_string_items vals offset)
  | .nullCol _ => .nullCol offset.length
  | .llist p vals => .llist p (select_list_items vals offset)

/-- Model of SelectRows (lines 458-472): a fresh batch of offset.size() rows
built from the input schema with the selected cells of every column. -/
def SelectRows (b : RecordBatch) (offset : List Nat) : RecordBatch :=
  ⟨offset.length, b.cols.map (fun c => SelectItems c offset)⟩

/-! ### Codec roundtrip lemmas -/

/-- Reading back a little-endian encoding recovers the value. -/
lemma readLE_natLE (w : Nat) : ∀ (v : Nat) (rest : List Nat), v < 256 ^ w →
    readLE w (natLE w v ++ rest) = some (v, rest) := by
  induction w with
  | zero =>
    intro v rest hv
    simp only [Nat.pow_zero, Nat.lt_one_iff] at hv
    subst hv
    rfl
  | succ w ih =>
    intro v rest hv
    have hdiv : v / 256 < 256 ^ w := by
      rw [Nat.div_lt_iff_lt_mul (by norm_num : 0 < 256)]
      calc v < 256 ^ (w + 1) := hv
        _ = 256 ^ w * 256 := by rw [Nat.pow_succ]
    have hih := ih (v / 256) rest hdiv
    simp only [natLE, List.cons_append, readLE]
    simp only [List.append_eq]
    rw [hih]
    show some (v % 256 + 256 * (v / 256), rest) = some (v, rest)
    rw [Nat.mod_add_div v 256]

/-- An in-range getD is a member of the list. -/
lemma getD_mem {α : Type _} (l : List α) (x : Nat) (d : α) (h : x < l.length) :
    l.getD x d ∈ l := by
  rw [List.getD_eq_getElem?_getD, List.getElem?_eq_getElem h]
  exact List.getElem_mem h

/-- Deserializing the serialization of a whole value slice recovers it. -/
lemma deserialize_whole_roundtrip (p : PrimType) :
    ∀ (vals : List Nat) (rest : List Nat), (∀ v ∈ vals, v < 256 ^ p.width) →
    deserialize_selected_typed_items p vals.length
      (serialize_typed_items_whole p vals ++ rest) = some (vals, rest) := by
  intro vals
  induction vals with
  | nil => intro rest _; rfl
  | cons v vs ih =>
    intro rest hv
    have hv0 : v < 256 ^ p.width := hv v (by simp)
    have hih := ih rest (fun x hx => hv x (by simp [hx]))
    simp only [serialize_typed_items_whole] at hih
    simp only [serialize_typed_items_whole, List.map_cons, List.flatten_cons,
      List.length_cons, List.append_assoc]
    simp only [deserialize_selected_typed_items, List.append_eq,
      readLE_natLE p.width v _ hv0]
    rw [hih]

/-- Deserializing the serialization of selected values yields the same cells
as the in-process selector. -/
lemma deserialize_selected_typed_roundtrip (p : PrimType) (vals : List Nat) :
    ∀ (offset : List Nat) (rest : List Nat),
    (∀ v ∈ vals, v < 256 ^ p.width) → (∀ x ∈ offset, x < vals.length) →
    deserialize_selected_typed_items p offset.length
      (serialize_selected_typed_items p vals offset ++ rest)
      = some (select_typed_items vals offset, rest) := by
  intro offset
  induction offset with
  | nil => intro rest _ _; rfl
  | cons x xs ih =>
    intro rest hv hoff
    have hx : x < vals.length := hoff x (by simp)
    have hval : vals.getD x 0 < 256 ^ p.width := hv _ (getD_mem vals x 0 hx)
    have hih := ih rest hv (fun y hy => hoff y (by simp [hy]))
    simp only [serialize_selected_typed_items] at hih
    simp only [serialize_selected_typed_items, List.map_cons, List.flatten_cons,
      List.length_cons, List.append_assoc]
    simp only [deserialize_selected_typed_items, List.append_eq,
      readLE_natLE p.width _ _ hval]
    rw [hih]
    rfl

/-- Reading back length-prefixed raw bytes recovers them. -/
lemma readBytes_append (s rest : List Nat) :
    readBytes s.length (s ++ rest) = some (s, rest) := by
  simp [readBytes, List.take_left, List.drop_left]

/-- String roundtrip: length-prefixed byte strings are recovered by value. -/
lemma deserialize_string_roundtrip (vals : List (List Nat)) :
    ∀ (offset : List Nat) (rest : List Nat),
    (∀ s ∈ vals, s.length < 2 ^ 64) → (∀ x ∈ offset, x < vals.length) →
    deserialize_string_items offset.length
      (serialize_string_items vals offset ++ rest)
      = some (select_string_items vals offset, rest) := by
  intro offset
  induction offset with
  | nil => intro rest _ _; rfl
  | cons x xs ih =>
    intro rest hlen hoff
    have hx : x < vals.length := hoff x (by simp)
    have hl : (vals.getD x []).length < 256 ^ 8 := by
      rw [show (256 : Nat) ^ 8 = 2 ^ 64 from by norm_num]
      exact hlen _ (getD_mem vals x [] hx)
    have hih := ih rest hlen (fun y hy => hoff y (by simp [hy]))
    simp only [serialize_string_items] at hih
    simp only [serialize_string_items, List.map_cons, List.flatten_cons,
      List.length_cons, List.append_assoc]
    simp only [deserialize_string_items, List.append_eq,
      readLE_natLE 8 _ _ hl, readBytes_append]
    rw [hih]
    rfl

/-- Large-list roundtrip: each length-prefixed slice is recovered by value. -/
lemma deserialize_list_roundtrip (p : PrimType) (vals : List (List Nat)) :
    ∀ (offset : List Nat) (rest : List Nat),
    (∀ l ∈ vals, l.length < 2 ^ 63 ∧ ∀ v ∈ l, v < 256 ^ p.width) →
    (∀ x ∈ offset, x < vals.length) →
    deserialize_list_items p offset.length
      (serialize_list_items p vals offset ++ rest)
      = some (select_list_items vals offset, rest) := by
  intro offset
  induction offset with
  | nil => intro rest _ _; rfl
  | cons x xs ih =>
    intro rest hwf hoff
    have hx : x < vals.length := hoff x (by simp)
    obtain ⟨hl, hv⟩ := hwf _ (getD_mem vals x [] hx)
    have hl8 : (vals.getD x []).length < 256 ^ 8 := by
      rw [show (256 : Nat) ^ 8 = 2 ^ 64 from by norm_num]
      exact lt_trans hl (by norm_num)
    have hih := ih rest hwf (fun y hy => hoff y (by simp [hy]))
    simp only [serialize_list_items] at hih
    simp only [serialize_list_items, List.map_cons, List.flatten_cons,
      List.length_cons, List.append_assoc]
    simp only [deserialize_list_items, List.append_eq,
      readLE_natLE 8 _ _ hl8, deserialize_whole_roundtrip p _ _ hv]
    rw [hih]
    rfl

/-- Column-level roundtrip: deserializing a serialized column under its own
type yields the selected column. -/
lemma DeserializeSelectedItems_roundtrip (c : Column) (offset rest : List Nat)
    (hwf : c.wf = true) (hoff : ∀ x ∈ offset, x < c.length) :
    DeserializeSelectedItems c.type offset.length
      (SerializeSelectedItems c offset ++ rest)
      = some (SelectItems c offset, rest) := by
  cases c with
  | prim p vals =>
    simp only [Column.wf, List.all_eq_true, decide_eq_true_eq] at hwf
    simp only [Column.type, SerializeSelectedItems, DeserializeSelectedItems,
      SelectItems,
      deserialize_selected_typed_roundtrip p vals offset rest hwf hoff]
  | str vals =>
    simp only [Column.wf, List.all_eq_true, Bool.and_eq_true,
      decide_eq_true_eq] at hwf
    have hlen : ∀ s ∈ vals, s.length < 2 ^ 64 := fun s hs => (hwf s hs).1
    simp only [Column.type, SerializeSelectedItems, DeserializeSelectedItems,
      SelectItems, deserialize_string_roundtrip vals offset rest hlen hoff]
  | nullCol n =>
    simp only [Column.type, SerializeSelectedItems, serialize_null_items,
      DeserializeSelectedItems, SelectItems, List.nil_append]
  | llist p vals =>
    simp only [Column.wf, List.all_eq_true, Bool.and_eq_true,
      decide_eq_true_eq] at hwf
    simp only [Column.type, SerializeSelectedItems, DeserializeSelectedItems,
      SelectItems, deserialize_list_roundtrip p vals offset rest hwf hoff]

/-- Roundtrip for the per-column fold of DeserializeSelectedRows. -/
lemma deserializeColumns_roundtrip :
    ∀ (cols : List Column) (offset rest : List Nat),
    (∀ c ∈ cols, c.wf = true ∧ ∀ x ∈ offset, x < c.length) →
    deserializeColumns (cols.map Column.type) offset.length
      ((cols.map (fun c => SerializeSelectedItems c offset)).flatten ++ rest)
      = some (cols.map (fun c => SelectItems c offset), rest) := by
  intro cols
  induction cols with
  | nil => intro offset rest _; rfl
  | cons c cs ih =>
    intro offset rest h
    obtain ⟨hc, hoff⟩ := h c (by simp)
    have hih := ih offset rest (fun d hd => h d (by simp [hd]))
    simp only [List.map_cons, List.flatten_cons, List.append_assoc,
      deserializeColumns, List.append_eq,
      DeserializeSelectedItems_roundtrip c offset _ hc hoff]
    rw [hih]

/-- Roundtrip at the record-batch level: deserializing the bytes written by
SerializeSelectedRows yields exactly the batch built by SelectRows. This is
the shared engine of claims C1, C2 and C9. -/
lemma DeserializeSelectedRows_SerializeSelectedRows (b : RecordBatch)
    (offset rest : List Nat) (hwf : b.wf = true)
    (hn : offset.length < 2 ^ 64) (hoff : ∀ x ∈ offset, x < b.numRows) :
    DeserializeSelectedRows b.schema (SerializeSelectedRows b offset ++ rest)
      = some (SelectRows b offset, rest) := by
  have hn8 : offset.length < 256 ^ 8 := by norm_num; omega
  simp only [RecordBatch.wf, List.all_eq_true, Bool.and_eq_true,
    beq_iff_eq] at hwf
  have hcols : ∀ c ∈ b.cols, c.wf = true ∧ ∀ x ∈ offset, x < c.length := by
    intro c hc
    obtain ⟨h1, h2⟩ := hwf c hc
    exact ⟨h1, fun x hx => h2 ▸ hoff x hx⟩
  simp only [SerializeSelectedRows, List.append_assoc, DeserializeSelectedRows,
    RecordBatch.schema, readLE_natLE 8 _ _ hn8,
    deserializeColumns_roundtrip b.cols offset rest hcols]
  rfl

/-- Selecting every row of a list by index is the identity. -/
lemma map_getD_range {α : Type _} (l : List α) (d : α) :
    (List.range l.length).map (fun x => l.getD x d) = l := by
  apply List.ext_getElem
  · simp
  · intro i h1 h2
    simp only [List.getElem_map, List.getElem_range]
    rw [List.getD_eq_getElem?_getD, List.getElem?_eq_getElem h2]
    rfl

/-- Selecting the full index range of a column whose length matches is the
identity. -/
lemma SelectItems_range (c : Column) (n : Nat) (hlen : c.length = n) :
    SelectItems c (List.range n) = c := by
  cases c with
  | prim p vals =>
    simp only [Column.length] at hlen
    subst hlen
    simp only [SelectItems, select_typed_items]
    rw [map_getD_range]
  | str vals =>
    simp only [Column.length] at hlen
    subst hlen
    simp only [SelectItems, select_string_items]
    rw [map_getD_range]
  | nullCol m =>
    simp only [Column.length] at hlen
    subst hlen
    simp [SelectItems]
  | llist p vals =>
    simp only [Column.length] at hlen
    subst hlen
    simp only [SelectItems, select_list_items]
    rw [map_getD_range]

/-- Selecting all rows of a well-formed batch reproduces the batch. -/
lemma SelectRows_range (b : RecordBatch) (hwf : b.wf = true) :
    SelectRows b (List.range b.numRows) = b := by
  simp only [RecordBatch.wf, List.all_eq_true, Bool.and_eq_true,
    beq_iff_eq] at hwf
  cases b with
  | mk n cols =>
    simp only [SelectRows, List.length_range]
    congr 1
    induction cols with
    | nil => rfl
    | cons c cs ih =>
      simp only [List.map_cons, List.cons.injEq]
      refine ⟨SelectItems_range c n (hwf c (by simp)).2, ?_⟩
      exact ih (fun d hd => hwf d (by simp [hd]))

/-! ### Router scan loops (lines 641-679 and 735-758)

Each scan thread claims one batch via the atomic counter and walks its rows
in ascending row order, appending row ids to per-fragment offset lists via
push_back. The per-batch loop is modelled as a fold over the enumerated
rows. -/

/-- One push_back: offset_list[f].push_back(row). -/
def appendAt (ol : List (List Nat)) (f row : Nat) : List (List Nat) :=
  ol.set f (ol.getD f [] ++ [row])

/-- Vertex scan body (lines 751-755): for every row, the partitioner is
applied to the key in column 0 and the row id is appended to that fragment
list. keys is the key column; part is partitioner.GetPartitionId. -/
def vertexOffsetLists {α : Type _} (fnum : Nat) (part : α → Nat)
    (keys : List α) : List (List Nat) :=
  keys.enum.foldl (fun ol p => appendAt ol (part p.2) p.1)
    (List.replicate fnum [])

/-- Edge scan body for one row (lines 665-676): the row id is appended to the
source-fragment list and, when the destination fragment differs, also to the
destination-fragment list. -/
def edgeAppend (ol : List (List Nat)) (src_fid dst_fid row : Nat) :
    List (List Nat) :=
  let ol1 := appendAt ol src_fid row
  if src_fid ≠ dst_fid then appendAt ol1 dst_fid row else ol1

/-- Edge scan over all rows: srcs and dsts are the two id columns designated
by src_col_id and dst_col_id, getFid is id_parser.GetFid. -/
def edgeOffsetLists (fnum : Nat) (getFid : Nat → Nat) (srcs dsts : List Nat) :
    List (List Nat) :=
  (srcs.zip dsts).enum.foldl
    (fun ol p => edgeAppend ol (getFid p.2.1) (getFid p.2.2) p.1)
    (List.replicate fnum [])

/-- Destination test of the edge scan for fragment f: the row lands in the
list of f when f is the source fragment, or the destination fragment of a
row whose endpoints live in distinct fragments. -/
def edgeHits (src_fid dst_fid f : Nat) : Bool :=
  (src_fid == f) || ((dst_fid == f) && !(src_fid == dst_fid))

/-! ### Offset-list characterization lemmas -/

lemma length_appendAt (ol : List (List Nat)) (f row : Nat) :
    (appendAt ol f row).length = ol.length := by
  simp [appendAt]

lemma getD_appendAt_self (ol : List (List Nat)) (f row : Nat)
    (h : f < ol.length) :
    (appendAt ol f row).getD f [] = ol.getD f [] ++ [row] := by
  simp [appendAt, List.getD_eq_getElem?_getD, List.getElem?_set_self h]

lemma getD_appendAt_other (ol : List (List Nat)) (f g row : Nat)
    (h : f ≠ g) :
    (appendAt ol f row).getD g [] = ol.getD g [] := by
  simp [appendAt, List.getD_eq_getElem?_getD, List.getElem?_set_ne h]

lemma length_edgeAppend (ol : List (List Nat)) (s d row : Nat) :
    (edgeAppend ol s d row).length = ol.length := by
  unfold edgeAppend
  split <;> simp [length_appendAt]

lemma getD_edgeAppend (ol : List (List Nat)) (s d f row : Nat)
    (hs : s < ol.length) (hd : d < ol.length) :
    (edgeAppend ol s d row).getD f []
      = ol.getD f [] ++ (if edgeHits s d f then [row] else []) := by
  unfold edgeAppend edgeHits
  by_cases hsd : s = d
  · subst hsd
    rw [if_neg (fun h => h rfl)]
    by_cases hf : s = f
    · subst hf
      rw [getD_appendAt_self ol _ _ hs]
      simp
    · rw [getD_appendAt_other ol _ _ _ hf]
      simp [hf]
  · rw [if_pos hsd]
    by_cases hfs : s = f
    · subst hfs
      have hne : d ≠ s := fun h => hsd h.symm
      rw [getD_appendAt_other _ _ _ _ hne, getD_appendAt_self ol _ _ hs]
      simp
    · by_cases hfd : d = f
      · subst hfd
        rw [getD_appendAt_self _ _ _ (by rw [length_appendAt]; exact hd),
          getD_appendAt_other ol _ _ _ hfs]
        simp [hfs, hsd]
      · rw [getD_appendAt_other _ _ _ _ hfd, getD_appendAt_other ol _ _ _ hfs]
        simp [hfs, hfd]

/-- The final list of fragment f after the vertex fold: the initial list
followed by the row ids of all enumerated rows whose key maps to f. -/
lemma vertexFold_getD {α : Type _} (part : α → Nat) :
    ∀ (l : List (Nat × α)) (init : List (List Nat)) (f : Nat),
    (∀ p ∈ l, part p.2 < init.length) →
    (l.foldl (fun ol p => appendAt ol (part p.2) p.1) init).getD f []
      = init.getD f [] ++ (l.filter (fun p => part p.2 == f)).map Prod.fst := by
  intro l
  induction l with
  | nil => intro init f _; simp
  | cons p tl ih =>
    intro init f hp
    have hplen : part p.2 < init.length := hp p (by simp)
    have htl : ∀ q ∈ tl, part q.2 < (appendAt init (part p.2) p.1).length := by
      intro q hq
      rw [length_appendAt]
      exact hp q (by simp [hq])
    simp only [List.foldl_cons, ih (appendAt init (part p.2) p.1) f htl]
    by_cases hf : part p.2 = f
    · subst hf
      rw [getD_appendAt_self init _ _ hplen]
      simp [List.filter_cons, List.append_assoc]
    · rw [getD_appendAt_other init _ _ _ hf]
      simp [List.filter_cons, beq_iff_eq, hf]

lemma getD_replicate_nil (n f : Nat) :
    (List.replicate n ([] : List Nat)).getD f [] = [] := by
  rw [List.getD_eq_getElem?_getD, List.getElem?_replicate]
  split <;> rfl

lemma vertexFold_length {α : Type _} (part : α → Nat) :
    ∀ (l : List (Nat × α)) (init : List (List Nat)),
    (l.foldl (fun ol p => appendAt ol (part p.2) p.1) init).length
      = init.length := by
  intro l
  induction l with
  | nil => intro init; rfl
  | cons p tl ih =>
    intro init
    simp only [List.foldl_cons, ih, length_appendAt]

lemma edgeFold_length (getFid : Nat → Nat) :
    ∀ (l : List (Nat × (Nat × Nat))) (init : List (List Nat)),
    (l.foldl (fun ol p => edgeAppend ol (getFid p.2.1) (getFid p.2.2) p.1)
      init).length = init.length := by
  intro l
  induction l with
  | nil => intro init; rfl
  | cons p tl ih =>
    intro init
    simp only [List.foldl_cons, ih, length_edgeAppend]

/-- The final list of fragment f after the edge fold: the initial list
followed by the row ids of all enumerated rows that hit f. -/
lemma edgeFold_getD (getFid : Nat → Nat) :
    ∀ (l : List (Nat × (Nat × Nat))) (init : List (List Nat)) (f : Nat),
    (∀ p ∈ l, getFid p.2.1 < init.length ∧ getFid p.2.2 < init.length) →
    (l.foldl (fun ol p => edgeAppend ol (getFid p.2.1) (getFid p.2.2) p.1)
        init).getD f []
      = init.getD f []
        ++ (l.filter
            (fun p => edgeHits (getFid p.2.1) (getFid p.2.2) f)).map Prod.fst := by
  intro l
  induction l with
  | nil => intro init f _; simp
  | cons p tl ih =>
    intro init f hp
    obtain ⟨hs, hd⟩ := hp p (by simp)
    have htl : ∀ q ∈ tl,
        getFid q.2.1 < (edgeAppend init (getFid p.2.1) (getFid p.2.2) p.1).length
        ∧ getFid q.2.2 < (edgeAppend init (getFid p.2.1) (getFid p.2.2) p.1).length := by
      intro q hq
      rw [length_edgeAppend]
      exact hp q (by simp [hq])
    simp only [List.foldl_cons, ih _ f htl]
    rw [getD_edgeAppend init _ _ f p.1 hs hd]
    cases hh : edgeHits (getFid p.2.1) (getFid p.2.2) f with
    | true => simp [List.filter_cons, hh, List.append_assoc]
    | false => simp [List.filter_cons, hh]

/-! ### Top-level offset-list shapes -/

lemma vertexOffsetLists_length {α : Type _} (fnum : Nat) (part : α → Nat)
    (keys : List α) : (vertexOffsetLists fnum part keys).length = fnum := by
  unfold vertexOffsetLists
  rw [vertexFold_length]
  simp

lemma edgeOffsetLists_length (fnum : Nat) (getFid : Nat → Nat)
    (srcs dsts : List Nat) :
    (edgeOffsetLists fnum getFid srcs dsts).length = fnum := by
  unfold edgeOffsetLists
  rw [edgeFold_length]
  simp

lemma vertexOffsetLists_getD {α : Type _} (fnum : Nat) (part : α → Nat)
    (keys : List α) (hp : ∀ k, part k < fnum) (f : Nat) :
    (vertexOffsetLists fnum part keys).getD f []
      = (keys.enum.filter (fun p => part p.2 == f)).map Prod.fst := by
  unfold vertexOffsetLists
  rw [vertexFold_getD part keys.enum _ f
    (fun p _ => by rw [List.length_replicate]; exact hp p.2)]
  rw [getD_replicate_nil]
  rfl

lemma edgeOffsetLists_getD (fnum : Nat) (getFid : Nat → Nat)
    (srcs dsts : List Nat) (hg : ∀ v, getFid v < fnum) (f : Nat) :
    (edgeOffsetLists fnum getFid srcs dsts).getD f []
      = ((srcs.zip dsts).enum.filter
          (fun p => edgeHits (getFid p.2.1) (getFid p.2.2) f)).map Prod.fst := by
  unfold edgeOffsetLists
  rw [edgeFold_getD getFid (srcs.zip dsts).enum _ f
    (fun p _ => by rw [List.length_replicate]; exact ⟨hg p.2.1, hg p.2.2⟩)]
  rw [getD_replicate_nil]
  rfl

/-! ### Facts about enumerated row ids -/

lemma pairwise_fst_enum {α : Type _} (l : List α) :
    l.enum.Pairwise (fun p q => p.1 < q.1) := by
  have h := List.pairwise_lt_range l.length
  rw [← List.enum_map_fst l] at h
  exact List.pairwise_map.mp h

lemma pairwise_lt_filtered_fst {α : Type _} (l : List α)
    (pred : Nat × α → Bool) :
    ((l.enum.filter pred).map Prod.fst).Pairwise (· < ·) :=
  List.pairwise_map.mpr ((pairwise_fst_enum l).filter pred)

lemma nodup_filtered_fst {α : Type _} (l : List α) (pred : Nat × α → Bool) :
    ((l.enum.filter pred).map Prod.fst).Nodup :=
  (pairwise_lt_filtered_fst l pred).imp (fun h => Nat.ne_of_lt h)

lemma mem_filtered_fst_iff {α : Type _} (l : List α) (pred : Nat × α → Bool)
    (r : Nat) :
    r ∈ (l.enum.filter pred).map Prod.fst
      ↔ ∃ a, l[r]? = some a ∧ pred (r, a) = true := by
  simp only [List.mem_map, List.mem_filter, List.mem_enum_iff_getElem?]
  constructor
  · rintro ⟨⟨i, a⟩, ⟨hmem, hpred⟩, rfl⟩
    exact ⟨a, hmem, hpred⟩
  · rintro ⟨a, hget, hpred⟩
    exact ⟨(r, a), ⟨hget, hpred⟩, rfl⟩

lemma count_filtered_fst {α : Type _} (l : List α) (pred : Nat × α → Bool)
    (r : Nat) :
    ((l.enum.filter pred).map Prod.fst).count r
      = if r ∈ (l.enum.filter pred).map Prod.fst then 1 else 0 := by
  split
  · exact List.count_eq_one_of_mem (nodup_filtered_fst l pred) (by assumption)
  · exact List.count_eq_zero_of_not_mem (by assumption)

/-! ### Indicator sums over the fragment range -/

lemma sum_map_range_single (g : Nat → Nat) (s n : Nat) (hs : s < n)
    (hz : ∀ f, f < n → f ≠ s → g f = 0) :
    ((List.range n).map g).sum = g s := by
  induction n with
  | zero => omega
  | succ n ih =>
    rw [List.range_succ, List.map_append, List.sum_append]
    by_cases hsn : s = n
    · subst hsn
      have h0 : ((List.range s).map g).sum = 0 := by
        apply List.sum_eq_zero
        intro x hx
        obtain ⟨f, hf, rfl⟩ := List.mem_map.mp hx
        have hflt := List.mem_range.mp hf
        exact hz f (by omega) (by omega)
      simp [h0]
    · have hs2 : s < n := by omega
      rw [ih hs2 (fun f hf hfs => hz f (by omega) hfs)]
      simp [hz n (by omega) (fun h => hsn h.symm)]

lemma sum_map_range_pair (g : Nat → Nat) (s d n : Nat) (hs : s < n)
    (hd : d < n) (hne : s ≠ d)
    (hz : ∀ f, f < n → f ≠ s → f ≠ d → g f = 0) :
    ((List.range n).map g).sum = g s + g d := by
  induction n with
  | zero => omega
  | succ n ih =>
    rw [List.range_succ, List.map_append, List.sum_append]
    by_cases hsn : s = n
    · subst hsn
      have hd2 : d < s := by omega
      rw [sum_map_range_single g d s hd2
        (fun f hf hfd => hz f (by omega) (by omega) hfd)]
      simp [Nat.add_comm]
    · by_cases hdn : d = n
      · subst hdn
        have hs2 : s < d := by omega
        rw [sum_map_range_single g s d hs2
          (fun f hf hfs => hz f (by omega) hfs (by omega))]
        simp
      · rw [ih (by omega) (by omega) (fun f hf hfs hfd => hz f (by omega) hfs hfd)]
        simp [hz n (by omega) (fun h => hsn h.symm) (fun h => hdn h.symm)]

/-! ### Schema consistency barrier (lines 94-170) -/

/-- Error kinds surfaced to the caller (ErrorCode values used in this
file): kArrowError and kInvalidOperationError. -/
inductive GSError where
  | arrowError
  | invalidOperation
  deriving DecidableEq, Repr

/-- A schema as compared by the barrier: the ordered field names and
logical types, with equality as arrow::Schema::Equals. -/
abbrev Schema := List (String × ColType)

/-- Receive-loop accumulator of SchemaConsistent (lines 140-157): for
i = 1 .. worker_num - 1 the schema received from worker
(worker_id + worker_num - i) % worker_num is compared with the local
schema and AND-folded into consistent. -/
def schemaRecvLoop (worker_num worker_id : Nat) (s : Nat → Schema) : Bool :=
  (List.range (worker_num - 1)).foldl
    (fun consistent i =>
      consistent
        && (s ((worker_id + worker_num - (i + 1)) % worker_num) == s worker_id))
    true

/-- Model of SchemaConsistent (lines 94-170) at peer worker_id among
worker_num peers presenting schemas s. Serialization of a pure schema
value always succeeds, so the failure-flag all-reduce (lines 117-129)
sums zero on every peer and falls through; the function then returns the
inconsistent-schema kInvalidOperationError exactly when the receive-loop
accumulator ends false (lines 164-167). -/
def SchemaConsistent (worker_num worker_id : Nat) (s : Nat → Schema) :
    Except GSError Unit :=
  if schemaRecvLoop worker_num worker_id s then Except.ok ()
  else Except.error GSError.invalidOperation

/-! ### Thread budget of the shuffle engine (lines 484-489) -/

/-- Line 484-486: thread_num = (hardware_concurrency + local_num - 1) /
local_num with C++ integer division (tdiv truncates toward zero exactly as
C++ division does). -/
def thread_num (hardware_concurrency local_num : Int) : Int :=
  (hardware_concurrency + local_num - 1).tdiv local_num

/-- Line 487: deserialize_thread_num = max(1, (thread_num - 2) / 2). -/
def deserialize_thread_num (T : Int) : Int :=
  max 1 ((T - 2).tdiv 2)

/-- Lines 488-489: serialize_thread_num =
max(1, thread_num - 2 - deserialize_thread_num). -/
def serialize_thread_num (T : Int) : Int :=
  max 1 (T - 2 - deserialize_thread_num T)

/-! ### Shuffle engine (lines 474-620, active branch) -/

/-- Wire items a serializer thread enqueues for one claimed batch (lines
539-546): one per remote worker in ring order, tagged with the destination
fragment, never including the local worker (the loop starts at i = 1). -/
def serializeForRemotes (worker_id worker_num : Nat) (w2f : Nat → Nat)
    (rb : RecordBatch) (ols : List (List Nat)) : List (Nat × List Nat) :=
  (List.range (worker_num - 1)).map (fun i =>
    (w2f ((worker_id + (i + 1)) % worker_num),
      SerializeSelectedRows rb (ols.getD (w2f ((worker_id + (i + 1)) % worker_num)) [])))

/-- Every item put on the outbound queue msg_out, in canonical batch order
(batches are claimed by an atomic counter, each exactly once; the actual
interleaving across serializer threads is a permutation of this list). -/
def shuffleOutbound (worker_id worker_num : Nat) (w2f : Nat → Nat)
    (batches : List RecordBatch) (offset_lists : List (List (List Nat))) :
    List (Nat × List Nat) :=
  ((batches.zip offset_lists).map
    (fun p => serializeForRemotes worker_id worker_num w2f p.1 p.2)).flatten

/-- Deserializer pool (lines 552-562): each received archive is decoded
into the next atomically claimed slot of record_batches_in; in arrival
order of the archives this is a map, failing if any archive is
malformed. -/
def deserializeAll (schema : List ColType) :
    List (List Nat) → Option (List RecordBatch)
  | [] => some []
  | arc :: rest =>
    match DeserializeSelectedRows schema arc with
    | none => none
    | some (b, _) =>
      match deserializeAll schema rest with
      | none => none
      | some bs => some (b :: bs)

/-- Model of ShuffleTableByOffsetLists (lines 474-620, active branch):
record_batches_in receives the deserialized wire batches in arrival order
of the received archives, then after the pipeline joins the locally
selected slice of every input batch is appended (lines 573-578); the local
fragment is comm_spec.fid() = w2f worker_id. -/
def ShuffleTableByOffsetLists (worker_id : Nat) (w2f : Nat → Nat)
    (schema : List ColType) (batches : List RecordBatch)
    (offset_lists : List (List (List Nat))) (received : List (List Nat)) :
    Option (List RecordBatch) :=
  match deserializeAll schema received with
  | none => none
  | some recvB =>
    some (recvB ++ (batches.zip offset_lists).map
      (fun p => SelectRows p.1 (p.2.getD (w2f worker_id) [])))

/-! ### Whole-shuffle view (ShufflePropertyVertexTable lines 713-789 and
ShufflePropertyEdgeTable lines 622-711, common tail after the scan) -/

/-- A table: a schema and its row chunks, as produced by
RecordBatchesToTable / CombineChunks / EmptyTableBuilder. -/
structure Table where
  schema : List ColType
  batches : List RecordBatch
  deriving DecidableEq, Repr

/-- Archives worker q sends to worker r, one per batch of q in batch
order: the serialization of the rows selected for fragment w2f r. -/
def wireTo (w2f : Nat → Nat) (batchesOf : Nat → List RecordBatch)
    (olsOf : Nat → List (List (List Nat))) (q r : Nat) : List (List Nat) :=
  ((batchesOf q).zip (olsOf q)).map
    (fun p => SerializeSelectedRows p.1 (p.2.getD (w2f r) []))

/-- All wire archives destined to worker r, grouped by sender. Actual
arrival order is any permutation of this list. -/
def allWireTo (worker_num : Nat) (w2f : Nat → Nat)
    (batchesOf : Nat → List RecordBatch)
    (olsOf : Nat → List (List (List Nat))) (r : Nat) : List (List Nat) :=
  (((List.range worker_num).filter (fun q => q != r)).map
    (fun q => wireTo w2f batchesOf olsOf q r)).flatten

/-- Common tail of both shuffle entry points (lines 684-710 and 763-788):
run the engine, erase batches with zero rows, and build the output table;
when nothing remains, EmptyTableBuilder produces an empty table with the
input schema. -/
def ShufflePropertyTable (worker_id : Nat) (w2f : Nat → Nat)
    (schema : List ColType) (batches : List RecordBatch)
    (offset_lists : List (List (List Nat))) (received : List (List Nat)) :
    Option Table :=
  match ShuffleTableByOffsetLists worker_id w2f schema batches offset_lists
    received with
  | none => none
  | some bin =>
    let kept := bin.filter (fun b => b.numRows != 0)
    if kept.isEmpty then some ⟨schema, []⟩ else some ⟨schema, kept⟩

/-- Cell values, for stating row-level equalities between tables. -/
inductive Cell where
  | prim (p : PrimType) (v : Nat)
  | str (s : List Nat)
  | nullCell
  | lst (p : PrimType) (l : List Nat)
  deriving DecidableEq, Repr

/-- The cell of a column at row j. -/
def Column.cellAt (c : Column) (j : Nat) : Cell :=
  match c with
  | .prim p vals => .prim p (vals.getD j 0)
  | .str vals => .str (vals.getD j [])
  | .nullCol _ => .nullCell
  | .llist p vals => .lst p (vals.getD j [])

/-- The row of a batch at index j, as the list of its cells. -/
def RecordBatch.rowAt (b : RecordBatch) (j : Nat) : List Cell :=
  b.cols.map (fun c => c.cellAt j)

/-- All rows of a batch, in order. -/
def RecordBatch.rows (b : RecordBatch) : List (List Cell) :=
  (List.range b.numRows).map b.rowAt

/-- All rows of a table, in chunk order. -/
def Table.rows (t : Table) : List (List Cell) :=
  (t.batches.map RecordBatch.rows).flatten

/-- The rows of worker q assigned to worker r by the offset tensors: for
every batch of q, the rows selected by the offsets of fragment w2f r, in
offset order. -/
def assignedFrom (w2f : Nat → Nat) (batchesOf : Nat → List RecordBatch)
    (olsOf : Nat → List (List (List Nat))) (q r : Nat) : List (List Cell) :=
  (((batchesOf q).zip (olsOf q)).map
    (fun p => (p.2.getD (w2f r) []).map (fun x => p.1.rowAt x))).flatten

/-- All rows assigned to worker r, over every worker including r. -/
def assignedRows (worker_num : Nat) (w2f : Nat → Nat)
    (batchesOf : Nat → List RecordBatch)
    (olsOf : Nat → List (List (List Nat))) (r : Nat) : List (List Cell) :=
  ((List.range worker_num).map
    (fun q => assignedFrom w2f batchesOf olsOf q r)).flatten

/-! ### Schema barrier lemmas -/

lemma foldl_and_eq_all {α : Type _} (p : α → Bool) (l : List α) :
    ∀ b : Bool, l.foldl (fun acc x => acc && p x) b = (b && l.all p) := by
  induction l with
  | nil => intro b; simp
  | cons x tl ih =>
    intro b
    simp only [List.foldl_cons, ih, List.all_cons, Bool.and_assoc]

lemma schemaRecvLoop_eq_all (W r : Nat) (s : Nat → Schema) :
    schemaRecvLoop W r s
      = (List.range (W - 1)).all
          (fun i => s ((r + W - (i + 1)) % W) == s r) := by
  unfold schemaRecvLoop
  rw [foldl_and_eq_all]
  simp

/-- The descending ring stride of the receive loop visits every other
worker exactly: for q ≠ r below W there is a loop index i with
(r + W - (i + 1)) % W = q. -/
lemma ring_stride_covers (W r q : Nat) (hr : r < W) (hq : q < W)
    (hne : q ≠ r) :
    ∃ i, i < W - 1 ∧ (r + W - (i + 1)) % W = q := by
  by_cases hqr : q < r
  · refine ⟨r - q - 1, by omega, ?_⟩
    have h1 : r + W - (r - q - 1 + 1) = W + q := by omega
    rw [h1, Nat.add_mod_left, Nat.mod_eq_of_lt hq]
  · have hrq : r < q := by omega
    refine ⟨W - (q - r) - 1, by omega, ?_⟩
    have h1 : r + W - (W - (q - r) - 1 + 1) = q := by omega
    rw [h1, Nat.mod_eq_of_lt hq]

/-- If any two peers present unequal schemas, the receive-loop accumulator
of every peer ends false. -/
lemma schemaRecvLoop_false_of_ne (W p q : Nat) (s : Nat → Schema)
    (hp : p < W) (hq : q < W) (hne : s p ≠ s q) (r : Nat) (hr : r < W) :
    schemaRecvLoop W r s = false := by
  rw [schemaRecvLoop_eq_all, Bool.eq_false_iff]
  intro hall
  have hcomp : ∀ q2, q2 < W → s q2 = s r := by
    intro q2 hq2
    by_cases hq2r : q2 = r
    · rw [hq2r]
    · obtain ⟨i, hi, hieq⟩ := ring_stride_covers W r q2 hr hq2 hq2r
      have hcmp := List.all_eq_true.mp hall i (List.mem_range.mpr hi)
      rw [hieq] at hcmp
      exact beq_iff_eq.mp hcmp
  exact hne ((hcomp p hp).trans (hcomp q hq).symm)

/-! ### Engine lemmas -/

/-- No outbound item is addressed to the local fragment: the serializer
ring starts at i = 1, so every destination worker differs from the local
worker, and with an injective worker-to-fragment map every destination
fragment differs from the local fragment. -/
lemma shuffleOutbound_ne_self (worker_id worker_num : Nat)
    (w2f : Nat → Nat) (hinj : Function.Injective w2f)
    (hW : worker_id < worker_num) (batches : List RecordBatch)
    (ols : List (List (List Nat))) :
    ∀ it ∈ shuffleOutbound worker_id worker_num w2f batches ols,
      it.1 ≠ w2f worker_id := by
  intro it hit
  unfold shuffleOutbound at hit
  rw [List.mem_flatten] at hit
  obtain ⟨l, hl, hitl⟩ := hit
  rw [List.mem_map] at hl
  obtain ⟨pz, _, rfl⟩ := hl
  unfold serializeForRemotes at hitl
  rw [List.mem_map] at hitl
  obtain ⟨i, hi, rfl⟩ := hitl
  have hilt : i < worker_num - 1 := List.mem_range.mp hi
  intro heq
  have hworker : (worker_id + (i + 1)) % worker_num = worker_id := hinj heq
  have hcancel : (i + 1) % worker_num = 0 % worker_num := by
    refine Nat.ModEq.add_left_cancel' worker_id ?_
    show (worker_id + (i + 1)) % worker_num = (worker_id + 0) % worker_num
    rw [hworker, Nat.add_zero, Nat.mod_eq_of_lt hW]
  rw [Nat.zero_mod, Nat.mod_eq_of_lt (by omega : i + 1 < worker_num)] at hcancel
  omega

/-- Totalized single-archive deserialization: the batch decoded from one
wire archive (default on malformed input). -/
def deserializeOne (schema : List ColType) (arc : List Nat) : RecordBatch :=
  match DeserializeSelectedRows schema arc with
  | none => default
  | some (b, _) => b

lemma deserializeAll_eq_map (schema : List ColType) :
    ∀ l : List (List Nat),
    (∀ arc ∈ l, (DeserializeSelectedRows schema arc).isSome = true) →
    deserializeAll schema l = some (l.map (deserializeOne schema)) := by
  intro l
  induction l with
  | nil => intro _; rfl
  | cons arc rest ih =>
    intro h
    have h1 := h arc (by simp)
    unfold deserializeAll
    cases hd : DeserializeSelectedRows schema arc with
    | none => rw [hd] at h1; simp at h1
    | some pr =>
      obtain ⟨b, rem⟩ := pr
      rw [ih (fun a ha => h a (by simp [ha]))]
      simp [List.map_cons, deserializeOne, hd]

lemma deserializeAll_length (schema : List ColType) :
    ∀ (l : List (List Nat)) (out : List RecordBatch),
    deserializeAll schema l = some out → out.length = l.length := by
  intro l
  induction l with
  | nil =>
    intro out h
    cases h
    rfl
  | cons arc rest ih =>
    intro out h
    unfold deserializeAll at h
    cases hd : DeserializeSelectedRows schema arc with
    | none => rw [hd] at h; simp at h
    | some pr =>
      obtain ⟨b, rem⟩ := pr
      rw [hd] at h
      cases hr : deserializeAll schema rest with
      | none => rw [hr] at h; simp at h
      | some bs =>
        rw [hr] at h
        simp only [Option.some.injEq] at h
        subst h
        simp [ih bs hr]

/-- Deserializing a permuted arrival order yields a permutation of the
canonical decoded batches. -/
lemma deserializeAll_perm (schema : List ColType)
    (l1 l2 : List (List Nat)) (h : l1.Perm l2)
    (hs : ∀ arc ∈ l2, (DeserializeSelectedRows schema arc).isSome = true) :
    deserializeAll schema l1 = some (l1.map (deserializeOne schema))
    ∧ (l1.map (deserializeOne schema)).Perm (l2.map (deserializeOne schema)) := by
  have hs1 : ∀ arc ∈ l1, (DeserializeSelectedRows schema arc).isSome = true :=
    fun arc ha => hs arc (h.mem_iff.mp ha)
  exact ⟨deserializeAll_eq_map schema l1 hs1, h.map _⟩

/-! ### Row-level lemmas -/

lemma getD_map_lt {α β : Type _} (g : α → β) (l : List α) (j : Nat)
    (hj : j < l.length) (d : β) (d2 : α) :
    (l.map g).getD j d = g (l.getD j d2) := by
  rw [List.getD_eq_getElem?_getD, List.getElem?_map,
    List.getElem?_eq_getElem hj, List.getD_eq_getElem?_getD,
    List.getElem?_eq_getElem hj]
  rfl

/-- The cell of a selected column at position j is the cell of the source
column at the selected row. -/
lemma cellAt_SelectItems (c : Column) (off : List Nat) (j : Nat)
    (hj : j < off.length) :
    (SelectItems c off).cellAt j = c.cellAt (off.getD j 0) := by
  cases c with
  | prim p vals =>
    simp only [SelectItems, select_typed_items, Column.cellAt]
    rw [getD_map_lt _ off j hj 0 0]
  | str vals =>
    simp only [SelectItems, select_string_items, Column.cellAt]
    rw [getD_map_lt _ off j hj [] 0]
  | nullCol n => rfl
  | llist p vals =>
    simp only [SelectItems, select_list_items, Column.cellAt]
    rw [getD_map_lt _ off j hj [] 0]

/-- The rows of a selected batch are the selected rows of the source. -/
lemma rows_SelectRows (b : RecordBatch) (off : List Nat) :
    (SelectRows b off).rows = off.map b.rowAt := by
  apply List.ext_getElem
  · simp [RecordBatch.rows, SelectRows]
  · intro j h1 h2
    simp only [RecordBatch.rows, SelectRows, List.getElem_map,
      List.getElem_range] at h1 ⊢
    have hj : j < off.length := by
      simpa [RecordBatch.rows, SelectRows] using h2
    simp only [RecordBatch.rowAt, List.map_map]
    apply List.map_congr_left
    intro c _
    simp only [Function.comp]
    rw [cellAt_SelectItems c off j hj, List.getD_eq_getElem?_getD,
      List.getElem?_eq_getElem hj]
    rfl

/-- A batch with zero rows contributes no rows. -/
lemma rows_numRows_zero (b : RecordBatch) (h : b.numRows = 0) :
    b.rows = [] := by
  simp [RecordBatch.rows, h]

/-- Erasing zero-row batches (lines 689-693 and 768-772) does not change
the concatenated rows. -/
lemma flatten_rows_filter (l : List RecordBatch) :
    ((l.filter (fun b => b.numRows != 0)).map RecordBatch.rows).flatten
      = (l.map RecordBatch.rows).flatten := by
  induction l with
  | nil => rfl
  | cons b tl ih =>
    cases hb : (b.numRows != 0) with
    | true => simp [List.filter_cons, hb, ih]
    | false =>
      have hz : b.numRows = 0 := by simpa using hb
      simp [List.filter_cons, hb, ih, rows_numRows_zero b hz]

/-- The range of workers is a permutation of the remote workers followed
by the local worker. -/
lemma range_perm_filter_ne (W r : Nat) (hr : r < W) :
    (List.range W).Perm ((List.range W).filter (fun q => q != r) ++ [r]) := by
  have hperm := (List.filter_append_perm (fun q => q != r) (List.range W)).symm
  have heq : (List.range W).filter (fun q => !(q != r)) = [r] := by
    have hbne : (fun q => !(q != r)) = (fun q => q == r) := by
      funext q
      simp [bne]
    rw [hbne, List.filter_beq,
      List.count_eq_one_of_mem (List.nodup_range W) (List.mem_range.mpr hr)]
    rfl
  rw [heq] at hperm
  exact hperm

/-! ### Wire decode lemmas for the whole-shuffle view -/

/-- A wire archive for a valid batch and offset list decodes to the
selected batch, consuming the whole archive. -/
lemma deserializeOne_eq_SelectRows (schema : List ColType) (b : RecordBatch)
    (off : List Nat) (hwf : b.wf = true) (hschema : b.schema = schema)
    (hn : off.length < 2 ^ 64) (hoff : ∀ x ∈ off, x < b.numRows) :
    DeserializeSelectedRows schema (SerializeSelectedRows b off)
      = some (SelectRows b off, []) := by
  have h := DeserializeSelectedRows_SerializeSelectedRows b off [] hwf hn hoff
  rw [List.append_nil] at h
  rw [← hschema]
  exact h

/-- Validity of the offsets a worker uses toward fragment w2f r. -/
abbrev olsValidFor (w2f : Nat → Nat) (batchesOf : Nat → List RecordBatch)
    (olsOf : Nat → List (List (List Nat))) (q r : Nat) : Prop :=
  ∀ pz ∈ (batchesOf q).zip (olsOf q),
    (∀ x ∈ pz.2.getD (w2f r) [], x < pz.1.numRows)
    ∧ (pz.2.getD (w2f r) []).length < 2 ^ 64

/-- Decoding the wire archives of one sender yields its selected batches. -/
lemma wireTo_decode (schema : List ColType) (w2f : Nat → Nat)
    (batchesOf : Nat → List RecordBatch)
    (olsOf : Nat → List (List (List Nat))) (q r : Nat)
    (hwfb : ∀ b ∈ batchesOf q, b.wf = true ∧ b.schema = schema)
    (hols : olsValidFor w2f batchesOf olsOf q r) :
    (wireTo w2f batchesOf olsOf q r).map (deserializeOne schema)
      = ((batchesOf q).zip (olsOf q)).map
          (fun pz => SelectRows pz.1 (pz.2.getD (w2f r) [])) := by
  unfold wireTo
  rw [List.map_map]
  apply List.map_congr_left
  intro pz hpz
  have hb : pz.1 ∈ batchesOf q := (List.of_mem_zip (by exact hpz)).1
  obtain ⟨hwf, hsch⟩ := hwfb pz.1 hb
  obtain ⟨hoff, hn⟩ := hols pz hpz
  simp only [Function.comp]
  unfold deserializeOne
  rw [deserializeOne_eq_SelectRows schema pz.1 _ hwf hsch hn hoff]

/-- Every archive destined to worker r decodes successfully. -/
lemma allWireTo_isSome (worker_num : Nat) (w2f : Nat → Nat)
    (batchesOf : Nat → List RecordBatch)
    (olsOf : Nat → List (List (List Nat))) (r : Nat) (schema : List ColType)
    (hwfb : ∀ q ∈ List.range worker_num,
      ∀ b ∈ batchesOf q, b.wf = true ∧ b.schema = schema)
    (hols : ∀ q ∈ List.range worker_num, olsValidFor w2f batchesOf olsOf q r) :
    ∀ arc ∈ allWireTo worker_num w2f batchesOf olsOf r,
      (DeserializeSelectedRows schema arc).isSome = true := by
  intro arc harc
  unfold allWireTo at harc
  rw [List.mem_flatten] at harc
  obtain ⟨l, hl, harcl⟩ := harc
  rw [List.mem_map] at hl
  obtain ⟨q, hqmem, rfl⟩ := hl
  have hq : q ∈ List.range worker_num := (List.mem_filter.mp hqmem).1
  unfold wireTo at harcl
  rw [List.mem_map] at harcl
  obtain ⟨pz, hpz, rfl⟩ := harcl
  have hb : pz.1 ∈ batchesOf q := (List.of_mem_zip (by exact hpz)).1
  obtain ⟨hwf, hsch⟩ := hwfb q hq pz.1 hb
  obtain ⟨hoff, hn⟩ := hols q hq pz hpz
  rw [deserializeOne_eq_SelectRows schema pz.1 _ hwf hsch hn hoff]
  rfl

/-- The rows of the selected batches of one zip are the assigned
rows. -/
lemma rows_selectZip (w2f : Nat → Nat) (batchesOf : Nat → List RecordBatch)
    (olsOf : Nat → List (List (List Nat))) (q r : Nat) :
    ((((batchesOf q).zip (olsOf q)).map
        (fun pz => SelectRows pz.1 (pz.2.getD (w2f r) []))).map
      RecordBatch.rows).flatten
      = assignedFrom w2f batchesOf olsOf q r := by
  unfold assignedFrom
  rw [List.map_map]
  congr 1
  apply List.map_congr_left
  intro pz _
  simp only [Function.comp]
  rw [rows_SelectRows]

/-- Rows of the decoded wire batches of a list of senders, grouped by
sender. -/
lemma rows_flatten_decode (schema : List ColType) (w2f : Nat → Nat)
    (batchesOf : Nat → List RecordBatch)
    (olsOf : Nat → List (List (List Nat))) (r : Nat) :
    ∀ qs : List Nat,
    (∀ q ∈ qs, ∀ b ∈ batchesOf q, b.wf = true ∧ b.schema = schema) →
    (∀ q ∈ qs, olsValidFor w2f batchesOf olsOf q r) →
    ((((qs.map (fun q => wireTo w2f batchesOf olsOf q r)).flatten).map
        (deserializeOne schema)).map RecordBatch.rows).flatten
      = (qs.map (fun q => assignedFrom w2f batchesOf olsOf q r)).flatten := by
  intro qs
  induction qs with
  | nil => intro _ _; rfl
  | cons q tl ih =>
    intro hwfb hols
    simp only [List.map_cons, List.flatten_cons, List.map_append,
      List.flatten_append]
    rw [wireTo_decode schema w2f batchesOf olsOf q r (hwfb q (by simp))
      (hols q (by simp)), rows_selectZip,
      ih (fun q2 hq2 => hwfb q2 (by simp [hq2]))
        (fun q2 hq2 => hols q2 (by simp [hq2]))]

/-! ### Claim theorems -/

/-- C1: for every record batch b over the supported column types
(well-formed for its schema), deserializing the bytes produced by
serializing all rows of b (offsets 0 .. numRows-1) yields a record batch
equal to b — bit patterns of numeric cells and values of string and list
cells are recovered exactly, and the whole archive is consumed. -/
theorem codec_roundtrip_all_rows (b : RecordBatch) (hwf : b.wf = true)
    (hn : b.numRows < 2 ^ 64) :
    DeserializeSelectedRows b.schema
      (SerializeSelectedRows b (List.range b.numRows)) = some (b, []) := by
  have h := DeserializeSelectedRows_SerializeSelectedRows b
    (List.range b.numRows) [] hwf (by simpa using hn)
    (fun x hx => List.mem_range.mp hx)
  rw [List.append_nil, SelectRows_range b hwf] at h
  exact h

/-- Concrete batch exercising every column kind of the closed type set. -/
def wb1 : RecordBatch :=
  ⟨2, [Column.prim PrimType.f64 [4611686018427387904, 13830554455654793216],
    Column.prim PrimType.u32 [7, 4294967295],
    Column.str [[104, 105], []],
    Column.nullCol 2,
    Column.llist PrimType.i32 [[7, 8, 9], []]]⟩

theorem codec_roundtrip_all_rows_witness :
    wb1.wf = true ∧ wb1.numRows < 2 ^ 64
    ∧ DeserializeSelectedRows wb1.schema
        (SerializeSelectedRows wb1 (List.range wb1.numRows))
      = some (wb1, []) :=
  ⟨by decide, by decide, codec_roundtrip_all_rows wb1 (by decide) (by decide)⟩

/-- C2: for every record batch and every offset list of valid row indices,
the in-process row-selection path (SelectRows) and the
serialize-then-deserialize path (SerializeSelectedRows followed by
DeserializeSelectedRows on the same schema) produce equal record batches. -/
theorem select_rows_eq_serialize_deserialize (b : RecordBatch)
    (offset rest : List Nat) (hwf : b.wf = true)
    (hn : offset.length < 2 ^ 64) (hoff : ∀ x ∈ offset, x < b.numRows) :
    DeserializeSelectedRows b.schema (SerializeSelectedRows b offset ++ rest)
      = some (SelectRows b offset, rest) :=
  DeserializeSelectedRows_SerializeSelectedRows b offset rest hwf hn hoff

theorem select_rows_eq_serialize_deserialize_witness :
    wb1.wf = true ∧ ([1, 0, 1] : List Nat).length < 2 ^ 64
    ∧ (∀ x ∈ ([1, 0, 1] : List Nat), x < wb1.numRows)
    ∧ DeserializeSelectedRows wb1.schema
        (SerializeSelectedRows wb1 [1, 0, 1] ++ [9, 9])
      = some (SelectRows wb1 [1, 0, 1], [9, 9]) :=
  ⟨by decide, by decide, by decide,
    select_rows_eq_serialize_deserialize wb1 [1, 0, 1] [9, 9] (by decide)
      (by decide) (by decide)⟩

/-- C7 counterexample: the claim is false on two counts. With one hardware
thread and one local worker the computed thread budget is 1 — the code
never clamps it to a minimum of 3. And at a budget of 5 the code assigns
2 serializer workers, while the claimed serializer formula
S = max(1, (T-2)/2) yields 1: the claim swaps the serializer and
deserializer pool formulas (line 487 computes deserialize_thread_num
= max(1, (T-2)/2) and lines 488-489 give the serializer the remainder). -/
theorem thread_budget_claim_counterexample :
    thread_num 1 1 = 1 ∧ ¬(3 ≤ thread_num 1 1)
    ∧ serialize_thread_num (thread_num 5 1) = 2
    ∧ max 1 ((thread_num 5 1 - 2).tdiv 2) = 1
    ∧ serialize_thread_num (thread_num 5 1)
        ≠ max 1 ((thread_num 5 1 - 2).tdiv 2) := by
  decide

/-- C7 (amended): the thread budget T equals
⌈hardware_concurrency / local_worker_count⌉ with no enforced minimum, and
the pool split assigns D = max(1, (T-2)/2) workers to the deserializer
pool and S = max(1, T-2-D) workers to the serializer pool, each at least
one. -/
theorem thread_budget_amended (hw local_num : Int) (hl : 1 ≤ local_num)
    (hh : 0 ≤ hw) :
    local_num * thread_num hw local_num ≥ hw
    ∧ local_num * (thread_num hw local_num - 1) < hw
    ∧ deserialize_thread_num (thread_num hw local_num)
        = max 1 ((thread_num hw local_num - 2).tdiv 2)
    ∧ serialize_thread_num (thread_num hw local_num)
        = max 1 (thread_num hw local_num - 2
            - deserialize_thread_num (thread_num hw local_num))
    ∧ 1 ≤ deserialize_thread_num (thread_num hw local_num)
    ∧ 1 ≤ serialize_thread_num (thread_num hw local_num) := by
  have h0 : (0 : Int) ≤ hw + local_num - 1 := by omega
  have htd : thread_num hw local_num = (hw + local_num - 1) / local_num := by
    unfold thread_num
    exact Int.tdiv_eq_ediv h0 (by omega)
  have hmod := Int.ediv_add_emod (hw + local_num - 1) local_num
  have hnn := Int.emod_nonneg (hw + local_num - 1)
    (show local_num ≠ 0 by omega)
  have hlt := Int.emod_lt_of_pos (hw + local_num - 1)
    (show (0 : Int) < local_num by omega)
  have hdistrib : local_num * ((hw + local_num - 1) / local_num - 1)
      = local_num * ((hw + local_num - 1) / local_num) - local_num := by
    ring
  refine ⟨?_, ?_, rfl, rfl, le_max_left 1 _, le_max_left 1 _⟩
  · rw [htd]
    omega
  · rw [htd]
    omega

theorem thread_budget_amended_witness :
    (1 : Int) ≤ 3 ∧ (0 : Int) ≤ 8
    ∧ (3 * thread_num 8 3 ≥ 8
      ∧ 3 * (thread_num 8 3 - 1) < 8
      ∧ deserialize_thread_num (thread_num 8 3)
          = max 1 ((thread_num 8 3 - 2).tdiv 2)
      ∧ serialize_thread_num (thread_num 8 3)
          = max 1 (thread_num 8 3 - 2
              - deserialize_thread_num (thread_num 8 3))
      ∧ 1 ≤ deserialize_thread_num (thread_num 8 3)
      ∧ 1 ≤ serialize_thread_num (thread_num 8 3)) :=
  ⟨by decide, by decide, thread_budget_amended 8 3 (by decide) (by decide)⟩

/-- C8: a serialized wire message for a (batch, offsets) pair is the
offset count as a 64-bit integer followed by each column of the batch in
schema order under its type encoding; and the deserializer, fed a 64-bit
count n followed by a payload, reads n and then consumes the payload
column by column in schema order with n cells each, flushing the columns
into the output batch of n rows. -/
theorem wire_format_structure (b : RecordBatch) (offset : List Nat)
    (schema : List ColType) (n : Nat) (hn : n < 2 ^ 64) (rest : List Nat) :
    SerializeSelectedRows b offset
        = natLE 8 offset.length
          ++ (b.cols.map (fun c => SerializeSelectedItems c offset)).flatten
    ∧ DeserializeSelectedRows schema (natLE 8 n ++ rest)
        = (match deserializeColumns schema n rest with
          | none => none
          | some (cols, rem) => some (⟨n, cols⟩, rem)) := by
  refine ⟨rfl, ?_⟩
  unfold DeserializeSelectedRows
  rw [readLE_natLE 8 n rest
    (by rw [show (256 : Nat) ^ 8 = 2 ^ 64 from by norm_num]; exact hn)]

theorem wire_format_structure_witness :
    (3 : Nat) < 2 ^ 64
    ∧ (SerializeSelectedRows wb1 [0]
        = natLE 8 ([0] : List Nat).length
          ++ (wb1.cols.map (fun c => SerializeSelectedItems c [0])).flatten
      ∧ DeserializeSelectedRows [ColType.nullT] (natLE 8 3 ++ [5])
          = (match deserializeColumns [ColType.nullT] 3 [5] with
            | none => none
            | some (cols, rem) => some (⟨3, cols⟩, rem))) :=
  ⟨by decide, wire_format_structure wb1 [0] [ColType.nullT] 3 (by decide) [5]⟩

/-- C3: in the vertex shuffle scan, every row r of a batch is appended to
exactly one destination offset list, namely the list of fragment
part(key of row r): it is a member of that list, absent from every other
fragment list, and counted exactly once across all fragment lists. -/
theorem vertex_router_each_row_once {α : Type _} (fnum : Nat)
    (part : α → Nat) (keys : List α) (hp : ∀ k, part k < fnum)
    (r : Nat) (k : α) (hr : keys[r]? = some k) :
    r ∈ (vertexOffsetLists fnum part keys).getD (part k) []
    ∧ (∀ f ∈ List.range fnum, f ≠ part k →
        r ∉ (vertexOffsetLists fnum part keys).getD f [])
    ∧ ((List.range fnum).map
        (fun f => ((vertexOffsetLists fnum part keys).getD f []).count r)).sum
      = 1 := by
  have hmem : ∀ f, r ∈ (vertexOffsetLists fnum part keys).getD f []
      ↔ part k = f := by
    intro f
    rw [vertexOffsetLists_getD fnum part keys hp f, mem_filtered_fst_iff]
    constructor
    · rintro ⟨a, hget, hpred⟩
      have hak : a = k := by
        rw [hr] at hget
        exact (Option.some.inj hget).symm
      subst hak
      exact beq_iff_eq.mp hpred
    · intro hf
      exact ⟨k, hr, by simp [hf]⟩
  have h1 : r ∈ (vertexOffsetLists fnum part keys).getD (part k) [] :=
    (hmem (part k)).mpr rfl
  refine ⟨h1, ?_, ?_⟩
  · intro f _ hne hcon
    exact hne ((hmem f).mp hcon).symm
  · have hnd : ∀ f, ((vertexOffsetLists fnum part keys).getD f []).Nodup := by
      intro f
      rw [vertexOffsetLists_getD fnum part keys hp f]
      exact nodup_filtered_fst _ _
    have hz : ∀ f, f < fnum → f ≠ part k →
        ((vertexOffsetLists fnum part keys).getD f []).count r = 0 := by
      intro f _ hne
      exact List.count_eq_zero_of_not_mem
        (fun hc => hne ((hmem f).mp hc).symm)
    rw [sum_map_range_single _ (part k) fnum (hp k) hz]
    exact List.count_eq_one_of_mem (hnd (part k)) h1

theorem vertex_router_each_row_once_witness :
    (([5, 2, 3] : List Nat)[2]? = some 3)
    ∧ (2 ∈ (vertexOffsetLists 2 (fun n => n % 2) [5, 2, 3]).getD (3 % 2) []
      ∧ (∀ f ∈ List.range 2, f ≠ 3 % 2 →
          2 ∉ (vertexOffsetLists 2 (fun n => n % 2) [5, 2, 3]).getD f [])
      ∧ ((List.range 2).map
          (fun f =>
            ((vertexOffsetLists 2 (fun n => n % 2) [5, 2, 3]).getD f []).count 2)).sum
        = 1) :=
  ⟨by decide,
    vertex_router_each_row_once 2 (fun n => n % 2) [5, 2, 3]
      (fun k => Nat.mod_lt k (by decide)) 2 3 (by decide)⟩

/-- C4: in the edge shuffle scan, every row r is appended to the offset
list of the fragment of its source id and, exactly when the destination
fragment differs, also to the list of that fragment; it is absent from every
other list, and counted once if the two fragments coincide and twice
otherwise. -/
theorem edge_router_both_endpoints (fnum : Nat) (getFid : Nat → Nat)
    (srcs dsts : List Nat) (hg : ∀ v, getFid v < fnum)
    (r s d : Nat) (hs : srcs[r]? = some s) (hd : dsts[r]? = some d) :
    r ∈ (edgeOffsetLists fnum getFid srcs dsts).getD (getFid s) []
    ∧ (getFid s ≠ getFid d →
        r ∈ (edgeOffsetLists fnum getFid srcs dsts).getD (getFid d) [])
    ∧ (∀ f ∈ List.range fnum, f ≠ getFid s → f ≠ getFid d →
        r ∉ (edgeOffsetLists fnum getFid srcs dsts).getD f [])
    ∧ ((List.range fnum).map
        (fun f =>
          ((edgeOffsetLists fnum getFid srcs dsts).getD f []).count r)).sum
      = (if getFid s = getFid d then 1 else 2) := by
  have hzip : (srcs.zip dsts)[r]? = some (s, d) :=
    List.getElem?_zip_eq_some.mpr ⟨hs, hd⟩
  have hmem : ∀ f, r ∈ (edgeOffsetLists fnum getFid srcs dsts).getD f []
      ↔ edgeHits (getFid s) (getFid d) f = true := by
    intro f
    rw [edgeOffsetLists_getD fnum getFid srcs dsts hg f, mem_filtered_fst_iff]
    constructor
    · rintro ⟨a, hget, hpred⟩
      have ha : a = (s, d) := by
        rw [hzip] at hget
        exact (Option.some.inj hget).symm
      subst ha
      exact hpred
    · intro hf
      exact ⟨(s, d), hzip, hf⟩
  have hnd : ∀ f, ((edgeOffsetLists fnum getFid srcs dsts).getD f []).Nodup := by
    intro f
    rw [edgeOffsetLists_getD fnum getFid srcs dsts hg f]
    exact nodup_filtered_fst _ _
  have h1 : r ∈ (edgeOffsetLists fnum getFid srcs dsts).getD (getFid s) [] :=
    (hmem (getFid s)).mpr (by simp [edgeHits])
  refine ⟨h1, ?_, ?_, ?_⟩
  · intro hne
    exact (hmem (getFid d)).mpr (by simp [edgeHits, hne])
  · intro f _ hfs hfd hcon
    have hh := (hmem f).mp hcon
    simp only [edgeHits, Bool.or_eq_true, Bool.and_eq_true,
      beq_iff_eq] at hh
    rcases hh with h | ⟨h, _⟩
    · exact hfs h.symm
    · exact hfd h.symm
  · by_cases hsd : getFid s = getFid d
    · rw [if_pos hsd]
      have hz : ∀ f, f < fnum → f ≠ getFid s →
          ((edgeOffsetLists fnum getFid srcs dsts).getD f []).count r = 0 := by
        intro f _ hne
        apply List.count_eq_zero_of_not_mem
        intro hc
        have hh := (hmem f).mp hc
        rw [← hsd] at hh
        simp only [edgeHits, Bool.or_eq_true, Bool.and_eq_true,
          beq_iff_eq] at hh
        rcases hh with h | ⟨h, _⟩
        · exact hne h.symm
        · exact hne h.symm
      rw [sum_map_range_single _ (getFid s) fnum (hg s) hz]
      exact List.count_eq_one_of_mem (hnd (getFid s)) h1
    · rw [if_neg hsd]
      have hz : ∀ f, f < fnum → f ≠ getFid s → f ≠ getFid d →
          ((edgeOffsetLists fnum getFid srcs dsts).getD f []).count r = 0 := by
        intro f _ hfs hfd
        apply List.count_eq_zero_of_not_mem
        intro hc
        have hh := (hmem f).mp hc
        simp only [edgeHits, Bool.or_eq_true, Bool.and_eq_true,
          beq_iff_eq] at hh
        rcases hh with h | ⟨h, _⟩
        · exact hfs h.symm
        · exact hfd h.symm
      rw [sum_map_range_pair _ (getFid s) (getFid d) fnum (hg s) (hg d) hsd hz]
      rw [List.count_eq_one_of_mem (hnd (getFid s)) h1,
        List.count_eq_one_of_mem (hnd (getFid d))
          ((hmem (getFid d)).mpr (by simp [edgeHits, hsd]))]

theorem edge_router_both_endpoints_witness :
    (([2] : List Nat)[0]? = some 2) ∧ (([3] : List Nat)[0]? = some 3)
    ∧ (0 ∈ (edgeOffsetLists 2 (fun v => v % 2) [2] [3]).getD (2 % 2) []
      ∧ (2 % 2 ≠ 3 % 2 →
          0 ∈ (edgeOffsetLists 2 (fun v => v % 2) [2] [3]).getD (3 % 2) [])
      ∧ (∀ f ∈ List.range 2, f ≠ 2 % 2 → f ≠ 3 % 2 →
          0 ∉ (edgeOffsetLists 2 (fun v => v % 2) [2] [3]).getD f [])
      ∧ ((List.range 2).map
          (fun f =>
            ((edgeOffsetLists 2 (fun v => v % 2) [2] [3]).getD f []).count 0)).sum
        = (if 2 % 2 = 3 % 2 then 1 else 2)) :=
  ⟨by decide, by decide,
    edge_router_both_endpoints 2 (fun v => v % 2) [2] [3]
      (fun v => Nat.mod_lt v (by decide)) 0 2 3 (by decide) (by decide)⟩

/-- C10: every offset list produced by the vertex and edge scans lists its
row indices in strictly increasing order, the per-batch offset-list vector
has exactly fragment-count entries, and every stored index is a valid row
index of the scanned batch. -/
theorem router_offset_list_invariants {α : Type _} (fnum : Nat)
    (part : α → Nat) (keys : List α) (hp : ∀ k, part k < fnum)
    (getFid : Nat → Nat) (srcs dsts : List Nat) (hg : ∀ v, getFid v < fnum) :
    (vertexOffsetLists fnum part keys).length = fnum
    ∧ (edgeOffsetLists fnum getFid srcs dsts).length = fnum
    ∧ (∀ l ∈ vertexOffsetLists fnum part keys,
        l.Pairwise (· < ·) ∧ ∀ i ∈ l, i < keys.length)
    ∧ (∀ l ∈ edgeOffsetLists fnum getFid srcs dsts,
        l.Pairwise (· < ·) ∧ ∀ i ∈ l, i < srcs.length) := by
  refine ⟨vertexOffsetLists_length fnum part keys,
    edgeOffsetLists_length fnum getFid srcs dsts, ?_, ?_⟩
  · intro l hl
    obtain ⟨f, hf, hfl⟩ := List.mem_iff_getElem.mp hl
    have hlD : l = (vertexOffsetLists fnum part keys).getD f [] := by
      rw [List.getD_eq_getElem _ [] hf, hfl]
    rw [hlD, vertexOffsetLists_getD fnum part keys hp f]
    refine ⟨pairwise_lt_filtered_fst _ _, ?_⟩
    intro i hi
    obtain ⟨a, hget, _⟩ := (mem_filtered_fst_iff _ _ _).mp hi
    exact (List.getElem?_eq_some_iff.mp hget).1
  · intro l hl
    obtain ⟨f, hf, hfl⟩ := List.mem_iff_getElem.mp hl
    have hlD : l = (edgeOffsetLists fnum getFid srcs dsts).getD f [] := by
      rw [List.getD_eq_getElem _ [] hf, hfl]
    rw [hlD, edgeOffsetLists_getD fnum getFid srcs dsts hg f]
    refine ⟨pairwise_lt_filtered_fst _ _, ?_⟩
    intro i hi
    obtain ⟨a, hget, _⟩ := (mem_filtered_fst_iff _ _ _).mp hi
    have hlt := (List.getElem?_eq_some_iff.mp hget).1
    rw [List.length_zip] at hlt
    omega

theorem router_offset_list_invariants_witness :
    (vertexOffsetLists 2 (fun n => n % 2) [5, 2, 3]).length = 2
    ∧ (edgeOffsetLists 2 (fun v => v % 2) [2] [3]).length = 2
    ∧ (∀ l ∈ vertexOffsetLists 2 (fun n => n % 2) [5, 2, 3],
        l.Pairwise (· < ·) ∧ ∀ i ∈ l, i < ([5, 2, 3] : List Nat).length)
    ∧ (∀ l ∈ edgeOffsetLists 2 (fun v => v % 2) [2] [3],
        l.Pairwise (· < ·) ∧ ∀ i ∈ l, i < ([2] : List Nat).length) :=
  router_offset_list_invariants 2 (fun n => n % 2) [5, 2, 3]
    (fun k => Nat.mod_lt k (by decide)) (fun v => v % 2) [2] [3]
    (fun v => Nat.mod_lt v (by decide))

/-- C5: if any two peers present unequal schemas to the Schema Barrier,
then the local AND-accumulator of every peer over the pairwise ring schema
comparisons ends false, and every peer returns the invalid-operation
(inconsistent schema) result; no peer returns success. -/
theorem schema_barrier_detects_mismatch_everywhere (W p q : Nat)
    (s : Nat → Schema) (hp : p < W) (hq : q < W) (hne : s p ≠ s q) :
    ∀ r ∈ List.range W,
      schemaRecvLoop W r s = false
      ∧ SchemaConsistent W r s = Except.error GSError.invalidOperation := by
  intro r hrm
  have hr := List.mem_range.mp hrm
  have hfalse := schemaRecvLoop_false_of_ne W p q s hp hq hne r hr
  exact ⟨hfalse, by simp [SchemaConsistent, hfalse]⟩

theorem schema_barrier_detects_mismatch_everywhere_witness :
    ((fun r => if r = 0 then [("id", ColType.prim PrimType.i64)]
        else [("id", ColType.prim PrimType.i32)]) 0
      ≠ (fun r => if r = 0 then [("id", ColType.prim PrimType.i64)]
        else [("id", ColType.prim PrimType.i32)]) 1)
    ∧ (∀ r ∈ List.range 2,
        schemaRecvLoop 2 r
          (fun r => if r = 0 then [("id", ColType.prim PrimType.i64)]
            else [("id", ColType.prim PrimType.i32)]) = false
        ∧ SchemaConsistent 2 r
            (fun r => if r = 0 then [("id", ColType.prim PrimType.i64)]
              else [("id", ColType.prim PrimType.i32)])
          = Except.error GSError.invalidOperation) :=
  ⟨by decide,
    schema_barrier_detects_mismatch_everywhere 2 0 1
      (fun r => if r = 0 then [("id", ColType.prim PrimType.i64)]
        else [("id", ColType.prim PrimType.i32)])
      (by decide) (by decide) (by decide)⟩

/-- C6: the shuffle engine output vector is exactly the deserialized
received wire batches, in arrival order, followed by one locally selected
batch per local input batch appended after all received batches; the
received part has length equal to the all-reduced total batch count minus
the local batch count; and no item put on the outbound queue is addressed
to the local fragment, so local-destined rows only pass through the
in-process row selector. -/
theorem shuffle_engine_output_structure (worker_id worker_num : Nat)
    (w2f : Nat → Nat) (schema : List ColType)
    (batches : List RecordBatch) (offset_lists : List (List (List Nat)))
    (received : List (List Nat)) (total : Nat) (out : List RecordBatch)
    (hW : worker_id < worker_num) (hinj : Function.Injective w2f)
    (hrx : received.length = total - batches.length)
    (hout : ShuffleTableByOffsetLists worker_id w2f schema batches
      offset_lists received = some out) :
    (∃ recvB, deserializeAll schema received = some recvB
      ∧ recvB.length = total - batches.length
      ∧ out = recvB ++ (batches.zip offset_lists).map
          (fun p => SelectRows p.1 (p.2.getD (w2f worker_id) [])))
    ∧ (∀ it ∈ shuffleOutbound worker_id worker_num w2f batches offset_lists,
        it.1 ≠ w2f worker_id) := by
  constructor
  · unfold ShuffleTableByOffsetLists at hout
    cases hdes : deserializeAll schema received with
    | none => rw [hdes] at hout; simp at hout
    | some recvB =>
      rw [hdes] at hout
      simp only [Option.some.injEq] at hout
      exact ⟨recvB, rfl,
        by rw [deserializeAll_length schema received recvB hdes, hrx],
        hout.symm⟩
  · exact shuffleOutbound_ne_self worker_id worker_num w2f hinj hW batches
      offset_lists

/-- Concrete one-row batch for the engine witness. -/
def wbE : RecordBatch := ⟨1, [Column.prim PrimType.i64 [5]]⟩

theorem shuffle_engine_output_structure_witness :
    (([] : List (List Nat)).length = 1 - ([wbE] : List RecordBatch).length)
    ∧ ShuffleTableByOffsetLists 0 (fun n => n) [ColType.prim PrimType.i64]
        [wbE] [[[0], []]] [] = some [wbE]
    ∧ ((∃ recvB, deserializeAll [ColType.prim PrimType.i64] [] = some recvB
        ∧ recvB.length = 1 - ([wbE] : List RecordBatch).length
        ∧ [wbE] = recvB ++ (([wbE] : List RecordBatch).zip [[[0], []]]).map
            (fun p => SelectRows p.1 (p.2.getD ((fun n => n) 0) [])))
      ∧ (∀ it ∈ shuffleOutbound 0 2 (fun n => n) [wbE] [[[0], []]],
          it.1 ≠ (fun n => n) 0)) :=
  ⟨by decide, by decide,
    shuffle_engine_output_structure 0 2 (fun n => n)
      [ColType.prim PrimType.i64] [wbE] [[[0], []]] [] 1 [wbE]
      (by decide) (fun a b h => h) (by decide) (by decide)⟩

/-- C9: the common tail of shuffle_vertex_table and shuffle_edge_table
(identical in both entry points) returns a freshly built table whose
schema equals the input schema and whose rows are, up to the arrival
order of the wire batches, exactly the rows assigned to the local
fragment by the offset lists of all workers; in particular a worker to
which no rows are assigned returns a valid empty table with the same
schema. -/
theorem shuffle_property_table_returns_assigned_rows (worker_num : Nat)
    (w2f : Nat → Nat) (schema : List ColType)
    (batchesOf : Nat → List RecordBatch)
    (olsOf : Nat → List (List (List Nat))) (r : Nat)
    (received : List (List Nat)) (hr : r < worker_num)
    (hwfb : ∀ q ∈ List.range worker_num,
      ∀ b ∈ batchesOf q, b.wf = true ∧ b.schema = schema)
    (hols : ∀ q ∈ List.range worker_num, olsValidFor w2f batchesOf olsOf q r)
    (hperm : received.Perm (allWireTo worker_num w2f batchesOf olsOf r)) :
    ∃ t, ShufflePropertyTable r w2f schema (batchesOf r) (olsOf r) received
        = some t
      ∧ t.schema = schema
      ∧ t.rows.Perm (assignedRows worker_num w2f batchesOf olsOf r) := by
  have hsome := allWireTo_isSome worker_num w2f batchesOf olsOf r schema
    hwfb hols
  have hsome1 : ∀ arc ∈ received,
      (DeserializeSelectedRows schema arc).isSome = true :=
    fun arc ha => hsome arc (hperm.mem_iff.mp ha)
  have hdes := deserializeAll_eq_map schema received hsome1
  have hengine : ShuffleTableByOffsetLists r w2f schema (batchesOf r)
      (olsOf r) received
      = some (received.map (deserializeOne schema)
          ++ ((batchesOf r).zip (olsOf r)).map
            (fun p => SelectRows p.1 (p.2.getD (w2f r) []))) := by
    unfold ShuffleTableByOffsetLists
    rw [hdes]
  set bin := received.map (deserializeOne schema)
      ++ ((batchesOf r).zip (olsOf r)).map
        (fun p => SelectRows p.1 (p.2.getD (w2f r) [])) with hbin
  have hrowsbin : ((bin.map RecordBatch.rows).flatten).Perm
      (assignedRows worker_num w2f batchesOf olsOf r) := by
    rw [hbin, List.map_append, List.flatten_append]
    have hrecvperm : (received.map (deserializeOne schema)).Perm
        ((allWireTo worker_num w2f batchesOf olsOf r).map
          (deserializeOne schema)) := hperm.map _
    have hrp := (hrecvperm.map RecordBatch.rows).flatten
    have hcanon : ((((allWireTo worker_num w2f batchesOf olsOf r).map
        (deserializeOne schema)).map RecordBatch.rows).flatten)
        = (((List.range worker_num).filter (fun q => q != r)).map
            (fun q => assignedFrom w2f batchesOf olsOf q r)).flatten := by
      unfold allWireTo
      exact rows_flatten_decode schema w2f batchesOf olsOf r _
        (fun q hqm => hwfb q (List.mem_filter.mp hqm).1)
        (fun q hqm => hols q (List.mem_filter.mp hqm).1)
    rw [hcanon] at hrp
    rw [rows_selectZip w2f batchesOf olsOf r r]
    have hassign : (assignedRows worker_num w2f batchesOf olsOf r).Perm
        ((((List.range worker_num).filter (fun q => q != r)).map
          (fun q => assignedFrom w2f batchesOf olsOf q r)).flatten
          ++ assignedFrom w2f batchesOf olsOf r r) := by
      have hone := ((range_perm_filter_ne worker_num r hr).map
        (fun q => assignedFrom w2f batchesOf olsOf q r)).flatten
      rw [List.map_append, List.flatten_append] at hone
      unfold assignedRows
      simpa using hone
    exact (hrp.append_right _).trans hassign.symm
  by_cases hkept : (bin.filter (fun b => b.numRows != 0)).isEmpty
  · refine ⟨⟨schema, []⟩, ?_, rfl, ?_⟩
    · unfold ShufflePropertyTable
      rw [hengine]
      show (if (bin.filter (fun b => b.numRows != 0)).isEmpty
          then some (⟨schema, []⟩ : Table)
          else some ⟨schema, bin.filter (fun b => b.numRows != 0)⟩)
        = some ⟨schema, []⟩
      rw [if_pos hkept]
    · have hkeptnil : bin.filter (fun b => b.numRows != 0) = [] :=
        List.isEmpty_iff.mp hkept
      have hbr : (bin.map RecordBatch.rows).flatten = [] := by
        rw [← flatten_rows_filter bin, hkeptnil]
        rfl
      have hempty := hrowsbin
      rw [hbr] at hempty
      simpa [Table.rows] using hempty
  · refine ⟨⟨schema, bin.filter (fun b => b.numRows != 0)⟩, ?_, rfl, ?_⟩
    · unfold ShufflePropertyTable
      rw [hengine]
      show (if (bin.filter (fun b => b.numRows != 0)).isEmpty
          then some (⟨schema, []⟩ : Table)
          else some ⟨schema, bin.filter (fun b => b.numRows != 0)⟩)
        = some ⟨schema, bin.filter (fun b => b.numRows != 0)⟩
      rw [if_neg hkept]
    · show ((( bin.filter (fun b => b.numRows != 0)).map
        RecordBatch.rows).flatten).Perm
        (assignedRows worker_num w2f batchesOf olsOf r)
      rw [flatten_rows_filter bin]
      exact hrowsbin

/-- Per-worker batches for the whole-shuffle witness: one one-row batch on
each of two workers. -/
def vbW : Nat → List RecordBatch := fun q =>
  if q = 0 then [⟨1, [Column.prim PrimType.i64 [5]]⟩]
  else [⟨1, [Column.prim PrimType.i64 [7]]⟩]

/-- Per-worker offset lists for the whole-shuffle witness: both workers
route their single row to fragment 0. -/
def volW : Nat → List (List (List Nat)) := fun _ => [[[0], []]]

theorem shuffle_property_table_returns_assigned_rows_witness :
    (0 < 2)
    ∧ (∀ q ∈ List.range 2, ∀ b ∈ vbW q,
        b.wf = true ∧ b.schema = [ColType.prim PrimType.i64])
    ∧ (∀ q ∈ List.range 2, olsValidFor (fun n => n) vbW volW q 0)
    ∧ (∃ t, ShufflePropertyTable 0 (fun n => n) [ColType.prim PrimType.i64]
          (vbW 0) (volW 0) (allWireTo 2 (fun n => n) vbW volW 0) = some t
      ∧ t.schema = [ColType.prim PrimType.i64]
      ∧ t.rows.Perm (assignedRows 2 (fun n => n) vbW volW 0)) :=
  ⟨by decide, by decide, by decide,
    shuffle_property_table_returns_assigned_rows 2 (fun n => n)
      [ColType.prim PrimType.i64] vbW volW 0
      (allWireTo 2 (fun n => n) vbW volW 0)
      (by decide) (by decide) (by decide) (List.Perm.refl _)⟩

end TableShufflerBeta
